import Mathlib

/-
Verification of the C# analyzer provider's core algorithms.

This file gives a shallow embedding, in Lean 4, of the data model and the
operations of the c-sharp-analyzer-provider repository:

* the dotted glob pattern matcher (src/c_sharp_graph/query.rs, Search);
* FQDN reconstruction along precedence-10 back-edges (get_fqdn);
* the field-symbol matcher (src/c_sharp_graph/field_query.rs);
* the namespace matcher construction and its NamespaceFQDNNotFoundError
  (src/c_sharp_graph/namespace_query.rs);
* the dependency-XML member handler (src/c_sharp_graph/dependency_xml_analyzer.rs);
* the query traversal (Querier::traverse_node_search in query.rs);
* result deduplication, conversion and ordering of the evaluate RPC
  (src/provider/csharp.rs, src/c_sharp_graph/results.rs);
* the code snippet extraction (src/provider/code_snip.rs).

Graph node handles are modelled as natural numbers; interned strings are
modelled as Lean strings (interning makes string identity equal value
identity, so this is faithful).  Machine integers (usize) are modelled as
Nat; where the Rust code subtracts usize values the model uses truncating
Nat subtraction and the relevant theorems restrict to the non-underflowing
inputs the program produces.
-/

/-- Syntax types of graph nodes, from SyntaxType in src/c_sharp_graph/query.rs.
The Rust constructor Import is named importDecl here because import is a
Lean keyword; all other constructor names follow the source. -/
inductive SyntaxType : Type where
  | importDecl
  | compUnit
  | namespaceDeclaration
  | classDef
  | methodName
  | fieldName
  | localVar
  | argument
  | name
deriving Repr, DecidableEq

/-- SyntaxType::get from query.rs: unknown strings normalize to name. -/
def SyntaxType.get (syntax_type_string : String) : SyntaxType :=
  if syntax_type_string = "import" then .importDecl
  else if syntax_type_string = "comp_unit" then .compUnit
  else if syntax_type_string = "namespace_declaration" then .namespaceDeclaration
  else if syntax_type_string = "class_def" then .classDef
  else if syntax_type_string = "method_name" then .methodName
  else if syntax_type_string = "field_name" then .fieldName
  else if syntax_type_string = "local_var" then .localVar
  else if syntax_type_string = "argument" then .argument
  else .name

/-- The four syntax types that participate in FQDN reconstruction
(the cases handled by get_fqdn and by NamespaceSymbols::traverse_node). -/
def SyntaxType.isHierarchical : SyntaxType → Bool
  | .namespaceDeclaration => true
  | .classDef => true
  | .methodName => true
  | .fieldName => true
  | _ => false

/-- Fqdn from query.rs.  The Rust fields namespace and class are named
ns and cls here because namespace and class are Lean keywords; method and
field keep their source names. -/
structure Fqdn where
  ns : Option String
  cls : Option String
  method : Option String
  field : Option String
deriving Repr, DecidableEq

/- ## String helpers

The Rust code splits strings with str::split on a one-character separator
and tests substring containment with str::contains.  The Lean core
String.splitOn is defined by well-founded recursion and does not reduce
inside the kernel, so the model uses its own structural split over the
character list; on one-character separators it computes exactly what
str::split computes (an empty input yields one empty segment, and a
trailing separator yields a trailing empty segment). -/

/-- Structural split accumulator: acc holds the current segment reversed. -/
def splitOnCharAux (sep : Char) : List Char → List Char → List String
  | [], acc => [String.mk acc.reverse]
  | c :: rest, acc =>
    if c = sep then String.mk acc.reverse :: splitOnCharAux sep rest []
    else splitOnCharAux sep rest (c :: acc)

/-- Rust str::split with a one-character separator. -/
def splitOnChar (sep : Char) (s : String) : List String :=
  splitOnCharAux sep s.toList []

/-- Whether the needle is a prefix of the haystack, character by character. -/
def startsWithList : List Char → List Char → Bool
  | [], _ => true
  | _ :: _, [] => false
  | a :: as, b :: bs => a == b && startsWithList as bs

/-- Whether the needle occurs contiguously inside the haystack. -/
def containsSubList (needle : List Char) : List Char → Bool
  | [] => startsWithList needle []
  | c :: t => startsWithList needle (c :: t) || containsSubList needle t

/-- Rust str::contains with a string pattern. -/
def strContains (hay needle : String) : Bool :=
  containsSubList needle.toList hay.toList

/- ## Pattern / Search (src/c_sharp_graph/query.rs) -/

/-- Backtracking helper for a star in a glob pattern: try the continuation
on every suffix of the input.  This is the standard semantics of the
regex fragment produced by create_search, where a * becomes the regex
piece (.*). -/
def globStar (next : List Char → Bool) : List Char → Bool
  | [] => next []
  | d :: t => next (d :: t) || globStar next t

/-- Anchored interpretation of one compiled pattern segment over the whole
input: a character of the segment other than star matches itself, a star
matches any substring (the regex piece (.*)), and the segment must cover
the input exactly.  This models a full match of the regex that
Search::create_search compiles from a segment (each * replaced by (.*),
all other characters literal). -/
def globMatch : List Char → List Char → Bool
  | [], s => s.isEmpty
  | c :: ps, s =>
    if c = '*' then globStar (globMatch ps) s
    else
      match s with
      | [] => false
      | d :: t => c == d && globMatch ps t

/-- Rust regex::Regex::is_match of the compiled segment: the regex is
unanchored, so it matches when the segment matches at any position,
i.e. a full match of the pattern star-segment-star. -/
def regexIsMatch (pat : List Char) (s : List Char) : Bool :=
  globMatch ('*' :: (pat ++ ['*'])) s

/-- SearchPart from query.rs.  The Rust struct stores the segment text and
an optional compiled regex; the regex is present exactly when the segment
contains a star, so the model stores the text and recomputes that test. -/
structure SearchPart where
  part : String
deriving Repr, DecidableEq

/-- Whether the stored regex of this part is Some: create_search compiles a
regex exactly for segments containing a star. -/
def SearchPart.isRegex (p : SearchPart) : Bool :=
  p.part.toList.contains '*'

/-- SearchPart::matches from query.rs: literal equality for plain segments,
unanchored regex search for starred segments. -/
def SearchPart.segMatches (p : SearchPart) (match_string : String) : Bool :=
  if p.isRegex then regexIsMatch p.part.toList match_string.toList
  else p.part == match_string

/-- Search from query.rs: the compiled dotted pattern. -/
structure Search where
  parts : List SearchPart
deriving Repr, DecidableEq

/-- Search::create_search: split the query on dots; every segment becomes a
part (with a regex when it contains a star, which SearchPart.isRegex
recomputes here). -/
def Search.create_search (query : String) : Search :=
  ⟨(splitOnChar '.' query).map (fun p => ⟨p⟩)⟩

/-- The loop shared verbatim by Search::partial_namespace and
Search::match_namespace: walk the symbol segments by index, stop as soon
as the pattern runs out of segments, fail on the first mismatching pair. -/
def Search.partsLoop : List SearchPart → List String → Bool
  | _, [] => true
  | [], _ :: _ => true
  | p :: ps, s :: ss => p.segMatches s && Search.partsLoop ps ss

/-- Search::partial_namespace from query.rs. -/
def Search.partial_namespace (se : Search) (symbol : String) : Bool :=
  Search.partsLoop se.parts (splitOnChar '.' symbol)

/-- Search::match_namespace from query.rs; its body is textually identical
to partial_namespace. -/
def Search.match_namespace (se : Search) (symbol : String) : Bool :=
  Search.partsLoop se.parts (splitOnChar '.' symbol)

/-- Search::match_symbol from query.rs: only the last pattern segment is
consulted.  The source unwraps the last part (the parts list built by
create_search is never empty); the model uses a default that is never
reached for searches built by create_search. -/
def Search.match_symbol (se : Search) (symbol : String) : Bool :=
  (se.parts.getLastD ⟨""⟩).segMatches symbol

/- ## Result nodes, deduplication and ordering
   (src/c_sharp_graph/results.rs and CSharpProvider::evaluate in
   src/provider/csharp.rs) -/

/-- Position from results.rs. -/
structure Position where
  line : Nat
  character : Nat
deriving Repr, DecidableEq

/-- Location from results.rs. -/
structure Location where
  start_position : Position
  end_position : Position
deriving Repr, DecidableEq

/-- ResultNode from results.rs.  The variables map (a BTreeMap from String
to JSON values) is modelled as an association list of string pairs: the
query engine only ever stores the string-valued entry for the key file.
The Rust field variables is named vars here because variables is a
reserved command token in Lean. -/
structure ResultNode where
  file_uri : String
  line_number : Nat
  vars : List (String × String)
  code_location : Location
deriving Repr, DecidableEq

/-- Field comparison chain of the derived Ord on Position (line, then
character). -/
def posCmp (a b : Position) : Ordering :=
  (compare a.line b.line).then (compare a.character b.character)

/-- Field comparison chain of the derived Ord on Location (start position,
then end position). -/
def locCmp (a b : Location) : Ordering :=
  (posCmp a.start_position b.start_position).then (posCmp a.end_position b.end_position)

/-- Lookup of a string value in a ResultNode's variables with default "",
as in the Ord implementation for ResultNode (variables.get(key) and
as_str() with unwrap_or of the empty string). -/
def varStr (r : ResultNode) (key : String) : String :=
  (r.vars.lookup key).getD ""

/-- The strict lexicographic order on character lists.  Rust compares
strings by their UTF-8 bytes; UTF-8 byte order coincides with code-point
order, so character-wise lexicographic comparison is exactly the Rust
String order.  (The Lean core and Mathlib string orders are defined
through iterators and do not reduce inside the kernel, hence this
structural definition.) -/
def charListLt : List Char → List Char → Bool
  | [], [] => false
  | [], _ :: _ => true
  | _ :: _, [] => false
  | a :: as, b :: bs =>
    if a < b then true
    else if a = b then charListLt as bs
    else false

/-- The Rust String total order, non-strict form. -/
def rustStrLe (a b : String) : Bool :=
  !(charListLt b.toList a.toList)

/-- The Rust String Ord as a three-way comparison. -/
def rustStrCmp (a b : String) : Ordering :=
  if charListLt a.toList b.toList then .lt
  else if a = b then .eq
  else .gt

/-- The Ord implementation for ResultNode from results.rs: file_uri, then
line_number, then code_location, then the syntax_type variable, then the
symbol variable.  String comparisons use the structural Rust order
defined above. -/
def resultNodeCmp (a b : ResultNode) : Ordering :=
  (rustStrCmp a.file_uri b.file_uri).then
    ((compare a.line_number b.line_number).then
      ((locCmp a.code_location b.code_location).then
        ((rustStrCmp (varStr a "syntax_type") (varStr b "syntax_type")).then
          (rustStrCmp (varStr a "symbol") (varStr b "symbol")))))

/-- The grouping key of the deduplication in CSharpProvider::evaluate. -/
def rnKey (r : ResultNode) : String × Nat :=
  (r.file_uri, r.line_number)

/-- The span tuple compared during deduplication:
(end line minus start line, start column, end column).  The Rust usize
subtraction panics on underflow; Nat subtraction truncates instead, which
agrees on every span with end line at or after start line. -/
def spanTuple (r : ResultNode) : Nat × Nat × Nat :=
  (r.code_location.end_position.line - r.code_location.start_position.line,
   r.code_location.start_position.character,
   r.code_location.end_position.character)

/-- Strict lexicographic order on span tuples, as compared by the Rust
tuple comparison in the dedup closure. -/
def tupLt (a b : Nat × Nat × Nat) : Prop :=
  a.1 < b.1 ∨ (a.1 = b.1 ∧ (a.2.1 < b.2.1 ∨ (a.2.1 = b.2.1 ∧ a.2.2 < b.2.2)))

instance : DecidableRel tupLt := fun a b => by
  unfold tupLt; infer_instance

/-- Non-strict companion of tupLt. -/
def tupLe (a b : Nat × Nat × Nat) : Prop := ¬ tupLt b a

/-- Strict lexicographic order on dedup keys (file_uri, then line number),
the order of the Rust BTreeMap keyed by (String, usize), with the
structural Rust string order. -/
def keyLt (a b : String × Nat) : Prop :=
  charListLt a.1.toList b.1.toList = true ∨ (a.1 = b.1 ∧ a.2 < b.2)

instance : DecidableRel keyLt := fun a b => by
  unfold keyLt; infer_instance

/-- The and_modify closure of the dedup: replace the current entry only
when the new result has a strictly smaller span tuple. -/
def betterOf (current r : ResultNode) : ResultNode :=
  if tupLt (spanTuple r) (spanTuple current) then r else current

/-- entry(key).and_modify(..).or_insert(r) on the BTreeMap, modelled on a
key-sorted association list. -/
def btreeUpsert (r : ResultNode) : List ((String × Nat) × ResultNode) → List ((String × Nat) × ResultNode)
  | [] => [(rnKey r, r)]
  | (k, v) :: rest =>
    if rnKey r = k then (k, betterOf v r) :: rest
    else if keyLt (rnKey r) k then (rnKey r, r) :: (k, v) :: rest
    else (k, v) :: btreeUpsert r rest

/-- The dedup loop of CSharpProvider::evaluate: fold every result into the
best_by_location map. -/
def dedupMap (l : List ResultNode) : List ((String × Nat) × ResultNode) :=
  l.foldl (fun m r => btreeUpsert r m) []

/-- best_by_location.values(): the surviving representatives in ascending
key order. -/
def dedupValues (l : List ResultNode) : List ResultNode :=
  (dedupMap l).map Prod.snd

/-- The sort key of the final sort_by_key in CSharpProvider::evaluate:
the string built by format of file_uri, a dash, and the line number. -/
def incidentSortKey (r : ResultNode) : String :=
  r.file_uri ++ "-" ++ toString r.line_number

/-- One insertion step of a stable insertion sort by the string key:
the new element goes in front of the first element it is
less-or-equal to, so elements with equal keys keep their relative
order, as Rust's stable sort_by_key guarantees. -/
def insertByKey (r : ResultNode) : List ResultNode → List ResultNode
  | [] => [r]
  | x :: xs =>
    if rustStrLe (incidentSortKey r) (incidentSortKey x) then r :: x :: xs
    else x :: insertByKey r xs

/-- Stable sort of the incident list by the string key, modelling
i.sort_by_key of the format string. -/
def sortByKey : List ResultNode → List ResultNode
  | [] => []
  | x :: xs => insertByKey x (sortByKey xs)

/-- The incident list returned on the Ok path of CSharpProvider::evaluate:
dedup survivors in map order, then a stable sort by the string key.
The conversion of a ResultNode into an IncidentContext copies file_uri,
line_number, code_location and variables unchanged, so the model keeps
working with ResultNode. -/
def finalIncidents (l : List ResultNode) : List ResultNode :=
  sortByKey (dedupValues l)

/- ## The evaluate RPC error plumbing (src/provider/csharp.rs) -/

/-- The query errors distinguished by CSharpProvider::evaluate: the
dedicated NamespaceFQDNNotFoundError from namespace_query.rs, and every
other anyhow error with its message. -/
inductive QueryError : Type where
  | namespaceNotFound
  | other (msg : String)
deriving Repr, DecidableEq

/-- Display of a query error, as consumed by e.to_string() in evaluate
(NamespaceFQDNNotFoundError displays a fixed message, but that branch
never reads the message). -/
def QueryError.toMessage : QueryError → String
  | .namespaceNotFound => "unable to find FQDN for namespace"
  | .other m => m

/-- ProviderEvaluateResponse, restricted to the fields the evaluate path
sets (template_context is always None). -/
structure ProviderEvaluateResponse where
  matched : Bool
  incident_contexts : List ResultNode
deriving Repr, DecidableEq

/-- EvaluateResponse from the analyzer service. -/
structure EvaluateResponse where
  error : String
  successful : Bool
  response : Option ProviderEvaluateResponse
deriving Repr, DecidableEq

/-- The match on the query result in CSharpProvider::evaluate: a
NamespaceFQDNNotFoundError downcast becomes a successful response with
matched false and no incidents; any other error becomes a failure
response carrying the error message; an Ok result is deduplicated,
converted and sorted, with matched true iff any incident remains. -/
def evaluateResult (res : Except QueryError (List ResultNode)) : EvaluateResponse :=
  match res with
  | .error .namespaceNotFound =>
    { error := "", successful := true,
      response := some { matched := false, incident_contexts := [] } }
  | .error e =>
    { error := e.toMessage, successful := false, response := none }
  | .ok l =>
    let i := finalIncidents l
    { error := "", successful := true,
      response := some { matched := !i.isEmpty, incident_contexts := i } }

/- ## Graph substrate for FQDN reconstruction (get_fqdn in query.rs) -/

/-- A directed edge of the stack graph: sink handle and precedence.
Source handles are implicit in the per-node adjacency lists. -/
structure GEdge where
  sink : Nat
  precedence : Nat
deriving Repr, DecidableEq

/-- Node data consulted by get_fqdn.  The source asserts that every node
reached during FQDN reconstruction has a symbol and a syntax type
(expect and unwrap); the model makes both total. -/
structure FqdnNodeData where
  symbol : String
  syntax_type : SyntaxType
deriving Repr, DecidableEq

/-- The graph as seen by get_fqdn: node data, adjacency lists, and a
well-formedness witness that precedence-10 edges strictly decrease the
node handle.  Any finite graph whose precedence-10 subgraph is acyclic
can be numbered this way; the Rust recursion only terminates on such
graphs (the spec calls a precedence-10 cycle a producer bug). -/
structure FqdnGraph where
  nodes : Nat → FqdnNodeData
  edges : Nat → List GEdge
  fqdn_acyclic : ∀ n e, e ∈ edges n → e.precedence = 10 → e.sink < n

/-- graph.outgoing_edges(node).find of the first precedence-10 edge, as in
get_fqdn. -/
def fqdn_edge (g : FqdnGraph) (n : Nat) : Option GEdge :=
  (g.edges n).find? (fun e => e.precedence == 10)

/-- The map_or_else of get_fqdn: set the field when empty, otherwise join
the existing value and the new symbol with a dot. -/
def appendDotted (cur : Option String) (symbol : String) : Option String :=
  match cur with
  | none => some symbol
  | some x => some (x ++ "." ++ symbol)

/-- The per-kind update applied by get_fqdn after the recursive call:
append this node's symbol to the field selected by its syntax type;
other syntax types yield None. -/
def fqdnAppend (f : Fqdn) (st : SyntaxType) (symbol : String) : Option Fqdn :=
  match st with
  | .namespaceDeclaration => some { f with ns := appendDotted f.ns symbol }
  | .methodName => some { f with method := appendDotted f.method symbol }
  | .classDef => some { f with cls := appendDotted f.cls symbol }
  | .fieldName => some { f with field := appendDotted f.field symbol }
  | _ => none

/-- The base case of get_fqdn (no precedence-10 edge): an Fqdn with only
the field of this node's syntax type set; other syntax types yield None. -/
def fqdnBase (st : SyntaxType) (symbol : String) : Option Fqdn :=
  match st with
  | .namespaceDeclaration => some ⟨some symbol, none, none, none⟩
  | .methodName => some ⟨none, none, some symbol, none⟩
  | .classDef => some ⟨none, some symbol, none, none⟩
  | .fieldName => some ⟨none, none, none, some symbol⟩
  | _ => none

/-- get_fqdn from query.rs: walk the first outgoing precedence-10 edge
recursively; at a spine root build the single-field Fqdn; when the
recursive call yields None return the empty Fqdn unchanged (the Rust
Some branch with a None recursive result); otherwise append this node's
symbol to the field of its syntax type. -/
def get_fqdn (g : FqdnGraph) (n : Nat) : Option Fqdn :=
  match h : fqdn_edge g n with
  | none => fqdnBase (g.nodes n).syntax_type (g.nodes n).symbol
  | some e =>
    match get_fqdn g e.sink with
    | none => some ⟨none, none, none, none⟩
    | some f => fqdnAppend f (g.nodes n).syntax_type (g.nodes n).symbol
termination_by n
decreasing_by
  exact g.fqdn_acyclic n e (List.mem_of_find?_eq_some h)
    (by simpa using List.find?_some h)

/- ## Query traversal graph (Querier::traverse_node_search in query.rs,
   NamespaceSymbols in namespace_query.rs, matcher construction in
   class_query.rs / field_query.rs) -/

/-- Source info of a traversal node: optional syntax type and the span.
The span endpoints reuse the Position model (line and utf8 column). -/
structure SourceInfo where
  syntax_type : Option SyntaxType
  span_start : Position
  span_end : Position
deriving Repr, DecidableEq

/-- A node as consulted by the query traversal: optional symbol, the
is_reference flag, and optional source info. -/
structure TravNode where
  symbol : Option String
  is_reference : Bool
  source_info : Option SourceInfo
deriving Repr, DecidableEq

/-- The graph as seen by the traversal: node data and adjacency lists over
natural-number handles. -/
structure TravGraph where
  nodes : Nat → TravNode
  edges : Nat → List GEdge

/-- The two callbacks of the SymbolMatcher trait (query.rs). -/
structure SymbolMatcherModel where
  match_symbol : String → Bool
  match_fqdn : Fqdn → Bool

/-- The non-precedence-10 children of a node, in edge order: the sinks the
traversal pushes onto traverse_nodes (edges with precedence 10 are
skipped with continue). -/
def nonP10Children (g : TravGraph) (node : Nat) : List Nat :=
  ((g.edges node).filter (fun e => !(e.precedence == 10))).map (fun e => e.sink)

/-- The per-child body of Querier::traverse_node_search: skip children
without a symbol; for reference nodes resolve the member access to an
Fqdn (tws models Querier::get_type_with_symbol, a graph-wide scan whose
internals do not matter for the claims below) and test match_fqdn, for
other nodes test match_symbol; skip children without source info or with
a degenerate span; otherwise emit the result record with the file
variable. -/
def visitChild (g : TravGraph) (m : SymbolMatcherModel) (tws : Nat → String → Option Fqdn)
    (file_uri : String) (sink : Nat) : Option ResultNode :=
  let child := g.nodes sink
  match child.symbol with
  | none => none
  | some symbol =>
    let keep : Bool :=
      if child.is_reference then
        match tws sink symbol with
        | none => false
        | some fq => m.match_fqdn fq
      else m.match_symbol symbol
    if keep then
      match child.source_info with
      | none => none
      | some si =>
        if si.span_start = si.span_end then none
        else
          some { file_uri := file_uri,
                 line_number := si.span_start.line,
                 vars := [("file", file_uri)],
                 code_location := ⟨si.span_start, si.span_end⟩ }
    else none

/-- Querier::traverse_node_search, with an explicit fuel bound on the
recursion depth (the Rust recursion carries no visited set and no depth
bound; it terminates only when the walked subgraph is acyclic).  Per
node: collect the hits of the non-precedence-10 children in edge order,
then recurse into each of those children in the same order. -/
def traverseFuel (g : TravGraph) (m : SymbolMatcherModel) (tws : Nat → String → Option Fqdn)
    (file_uri : String) : Nat → Nat → List ResultNode
  | 0, _ => []
  | fuel + 1, node =>
    let traverse_nodes := nonP10Children g node
    traverse_nodes.filterMap (visitChild g m tws file_uri) ++
      (traverse_nodes.map (fun n => traverseFuel g m tws file_uri fuel n)).flatten

/-- The same graph with every precedence-10 edge removed. -/
def removeP10 (g : TravGraph) : TravGraph :=
  { g with edges := fun n => (g.edges n).filter (fun e => !(e.precedence == 10)) }

/-- Reachability along non-precedence-10 edges, the part of the graph the
traversal can visit starting from a compilation-unit node. -/
inductive Reach (g : TravGraph) (start : Nat) : Nat → Prop
  | refl : Reach g start start
  | step {n : Nat} {e : GEdge} : Reach g start n → e ∈ g.edges n →
      e.precedence ≠ 10 → Reach g start e.sink

/- ## Namespace matcher construction (namespace_query.rs) -/

/-- The test applied to each child edge sink by
NamespaceSymbols::traverse_node: the child must carry a symbol accepted
by search.match_symbol, and source info whose syntax type is one of the
four hierarchical kinds. -/
def nsMatches (g : TravGraph) (search : Search) (sink : Nat) : Bool :=
  let child := g.nodes sink
  match child.symbol with
  | none => false
  | some symbol =>
    search.match_symbol symbol &&
      (match child.source_info with
       | none => false
       | some si =>
         match si.syntax_type with
         | none => false
         | some st => st.isHierarchical)

/-- NamespaceSymbols::traverse_node, fueled: scan the non-precedence-10
children in edge order and, at the first child passing nsMatches, return
get_fqdn of that child (fq models get_fqdn on the underlying graph; the
Rust code returns its Option unchanged, even when it is None).  When no
child matches, sort the children ascending (the source sorts
child_edges for deterministic traversal) and return the first Some of
the recursive calls. -/
def nsTraverse (g : TravGraph) (search : Search) (fq : Nat → Option Fqdn) :
    Nat → Nat → Option Fqdn
  | 0, _ => none
  | fuel + 1, node =>
    let child_edges := nonP10Children g node
    match child_edges.find? (nsMatches g search) with
    | some c => fq c
    | none =>
      (List.insertionSort (· ≤ ·) child_edges).findSome?
        (fun c => nsTraverse g search fq fuel c)

/-- The loop over definition-root nodes in NamespaceSymbols::new: take the
first root whose traversal yields a Some. -/
def nsFindFqdn (g : TravGraph) (search : Search) (fq : Nat → Option Fqdn)
    (fuel : Nat) (roots : List Nat) : Option Fqdn :=
  roots.findSome? (fun n => nsTraverse g search fq fuel n)

/-- The shared shape of ClassSymbols::traverse_node and
FieldSymbols::traverse_node (their bodies differ only in the target
syntax type and the map they fill): collect, over the non-precedence-10
reachable children, the Fqdn of every child whose symbol matches the
search and whose syntax type equals the target, recursing into every
child.  The source unwraps get_fqdn with an expect; the model skips a
child whose Fqdn is None, a case the source turns into a panic. -/
def collectFqdns (g : TravGraph) (search : Search) (fq : Nat → Option Fqdn)
    (target : SyntaxType) : Nat → Nat → List Fqdn
  | 0, _ => []
  | fuel + 1, node =>
    let child_edges := nonP10Children g node
    (child_edges.filterMap (fun c =>
      match (g.nodes c).symbol with
      | none => none
      | some symbol =>
        if search.match_symbol symbol then
          match (g.nodes c).source_info with
          | none => none
          | some si =>
            match si.syntax_type with
            | none => none
            | some st => if st = target then fq c else none
        else none)) ++
      (child_edges.map (fun c => collectFqdns g search fq target fuel c)).flatten

/-- FieldSymbols from field_query.rs: the keys of the fields map. -/
structure FieldSymbols where
  fields : List Fqdn
deriving Repr, DecidableEq

/-- FieldSymbols::new: collect the FieldName descendants of every
definition root. -/
def FieldSymbols.new (g : TravGraph) (search : Search) (fq : Nat → Option Fqdn)
    (fuel : Nat) (roots : List Nat) : FieldSymbols :=
  ⟨(roots.map (collectFqdns g search fq .fieldName fuel)).flatten⟩

/-- FieldSymbols::symbol_in_namespace from field_query.rs: require exactly
two dot-separated parts, then scan the stored Fqdns.  Note that the
source reads the method component of each stored Fqdn into its local
variable named field, and the early return on that comparison makes the
class comparison unreachable. -/
def FieldSymbols.symbol_in_namespace (fs : FieldSymbols) (symbol : String) : Bool :=
  let parts := splitOnChar '.' symbol
  if parts.length ≠ 2 then false
  else
    let field_part := parts.getLastD ""
    let class_part := parts.headD ""
    fs.fields.any (fun fqdn =>
      let field := fqdn.method.getD ""
      let cls := fqdn.cls.getD ""
      if field == field_part then true
      else field == field_part && cls == class_part)

/-- FieldSymbols::match_symbol from field_query.rs. -/
def FieldSymbols.match_symbol (fs : FieldSymbols) (symbol : String) : Bool :=
  fs.symbol_in_namespace symbol

/-- The behaviour claimed by the specification for the field matcher: a
dotted Class.Field symbol matches when some stored Fqdn has that class
and that field, with the documented relaxation that a bare match on the
stored field component alone is also accepted. -/
def fieldClaimMatch (fs : FieldSymbols) (symbol : String) : Bool :=
  let parts := splitOnChar '.' symbol
  if parts.length ≠ 2 then false
  else
    let field_part := parts.getLastD ""
    let class_part := parts.headD ""
    fs.fields.any (fun fqdn =>
      (fqdn.cls == some class_part && fqdn.field == some field_part) ||
        fqdn.field == some field_part)

/-- ClassSymbols from class_query.rs: the keys of the classes map. -/
structure ClassSymbols where
  classes : List Fqdn
deriving Repr, DecidableEq

/-- ClassSymbols::new: collect the ClassDef descendants of every
definition root. -/
def ClassSymbols.new (g : TravGraph) (search : Search) (fq : Nat → Option Fqdn)
    (fuel : Nat) (roots : List Nat) : ClassSymbols :=
  ⟨(roots.map (collectFqdns g search fq .classDef fuel)).flatten⟩

/-- Modelled from the spec: method_query.rs (MethodSymbols and
MethodSymbols::new) is not under src/; the spec states the method matcher
is constructed like the field matcher but collecting MethodName
descendants, and that its construction always succeeds. -/
structure MethodSymbols where
  methods : List Fqdn
deriving Repr, DecidableEq

/-- Modelled from the spec: MethodSymbols::new collects the MethodName
descendants of every definition root and cannot fail. -/
def MethodSymbols.new (g : TravGraph) (search : Search) (fq : Nat → Option Fqdn)
    (fuel : Nat) (roots : List Nat) : MethodSymbols :=
  ⟨(roots.map (collectFqdns g search fq .methodName fuel)).flatten⟩

/-- NamespaceSymbols from namespace_query.rs.  The Rust field namespace is
named ns_fqdn here because namespace is a Lean keyword. -/
structure NamespaceSymbols where
  classes : ClassSymbols
  fields : FieldSymbols
  methods : MethodSymbols
  ns_fqdn : Fqdn
deriving Repr, DecidableEq

/-- NamespaceSymbols::new from namespace_query.rs: build the class, field
and method collections (none of which can fail), then search the
definition roots for a namespace Fqdn; when none is found return the
dedicated NamespaceFQDNNotFoundError, modelled as the distinguished
QueryError.namespaceNotFound. -/
def NamespaceSymbols.new (g : TravGraph) (search : Search) (fq : Nat → Option Fqdn)
    (fuel : Nat) (roots : List Nat) : Except QueryError NamespaceSymbols :=
  let class_symbol := ClassSymbols.new g search fq fuel roots
  let field_symbol := FieldSymbols.new g search fq fuel roots
  let method_symbols := MethodSymbols.new g search fq fuel roots
  match nsFindFqdn g search fq fuel roots with
  | none => .error .namespaceNotFound
  | some f => .ok ⟨class_symbol, field_symbol, method_symbols, f⟩

/- ## Dependency-XML member handling
   (DepXMLFileAnalyzer::handle_member in dependency_xml_analyzer.rs) -/

/-- Node fragment emitted by the XML indexer. -/
structure NodeInfo where
  symbol : String
  syntax_type : SyntaxType
deriving Repr, DecidableEq

/-- Edge fragment emitted by the XML indexer. -/
structure EdgeInfo where
  source : NodeInfo
  sink : NodeInfo
  precedence : Nat
deriving Repr, DecidableEq

/-- The namespace-assembly fold shared by the F, P and M arms: join the
remaining parts with dots starting from the empty accumulator. -/
def joinDotted (parts : List String) : String :=
  parts.foldl (fun acc p => if acc = "" then p else acc ++ "." ++ p) ""

/-- The namespace-assembly fold of the T arm, which additionally truncates
a part at the first # (interface-qualified member notation). -/
def joinDottedHash (parts : List String) : String :=
  parts.foldl (fun acc p =>
    let interface_check_parts := splitOnChar '#' p
    let t := if interface_check_parts.length > 1 then interface_check_parts.headD "" else p
    if acc = "" then t else acc ++ "." ++ t) ""

/-- The parameter-list strip of the M arm: when the name contains an
opening parenthesis, keep only the text before the first one. -/
def stripParams (name : String) : String :=
  if name.toList.contains '(' then (splitOnChar '(' name).headD "" else name

/-- DepXMLFileAnalyzer::handle_member from dependency_xml_analyzer.rs,
per member-kind sigil.  The getLast? matches mirror the source's
parts.next_back() with its is_none early returns (splitting a string on
a dot never yields an empty list, so the first of them never fires). -/
def handle_member (member_type : String) (name : String) : List NodeInfo × List EdgeInfo :=
  if member_type = "N" then
    ([⟨name, .namespaceDeclaration⟩], [])
  else if member_type = "T" then
    if name = "" then ([], [])
    else
      let parts := splitOnChar '.' name
      match parts.getLast? with
      | none => ([], [])
      | some part =>
        let type_name : NodeInfo := ⟨part, .classDef⟩
        let namespace_symbol := joinDottedHash parts.dropLast
        let ns_node : NodeInfo := ⟨namespace_symbol, .namespaceDeclaration⟩
        ([type_name, ns_node],
         [⟨ns_node, type_name, 0⟩, ⟨type_name, ns_node, 10⟩])
  else if member_type = "F" || member_type = "P" then
    if name = "" then ([], [])
    else
      let parts := splitOnChar '.' name
      match parts.getLast? with
      | none => ([], [])
      | some fpart =>
        let field_name : NodeInfo := ⟨fpart, .fieldName⟩
        match parts.dropLast.getLast? with
        | none => ([], [])
        | some cpart =>
          let type_name : NodeInfo := ⟨cpart, .classDef⟩
          let namespace_symbol := joinDotted parts.dropLast.dropLast
          let ns_node : NodeInfo := ⟨namespace_symbol, .namespaceDeclaration⟩
          ([field_name, type_name, ns_node],
           [⟨ns_node, type_name, 0⟩, ⟨type_name, field_name, 0⟩,
            ⟨field_name, type_name, 10⟩, ⟨type_name, ns_node, 10⟩])
  else if member_type = "M" then
    if name = "" then ([], [])
    else
      let parts := splitOnChar '.' (stripParams name)
      match parts.getLast? with
      | none => ([], [])
      | some part =>
        if strContains part "#ctor" then
          match parts.dropLast.getLast? with
          | none => ([], [])
          | some prev =>
            let method_node : NodeInfo := ⟨prev, .methodName⟩
            let type_name : NodeInfo := ⟨prev, .classDef⟩
            let namespace_symbol := joinDotted parts.dropLast.dropLast
            let ns_node : NodeInfo := ⟨namespace_symbol, .namespaceDeclaration⟩
            ([method_node, type_name, ns_node],
             [⟨ns_node, type_name, 0⟩, ⟨type_name, method_node, 0⟩,
              ⟨method_node, type_name, 10⟩, ⟨type_name, ns_node, 10⟩])
        else
          match parts.dropLast.getLast? with
          | none => ([], [])
          | some prev =>
            let method_node : NodeInfo := ⟨part, .methodName⟩
            let type_name : NodeInfo := ⟨prev, .classDef⟩
            let namespace_symbol := joinDotted parts.dropLast.dropLast
            let ns_node : NodeInfo := ⟨namespace_symbol, .namespaceDeclaration⟩
            ([method_node, type_name, ns_node],
             [⟨ns_node, type_name, 0⟩, ⟨type_name, method_node, 0⟩,
              ⟨method_node, type_name, 10⟩, ⟨type_name, ns_node, 10⟩])
  else ([], [])

/- ## Code snippet extraction (get_code_snip in src/provider/code_snip.rs) -/

/-- The line-extraction core of get_code_snip: skip to the start line minus
the configured context (clamped at zero), take the span height plus the
context, and prefix each kept line with its zero-based index.  The file
is modelled as its list of lines. -/
def get_code_snip (context_lines : Nat) (lines : List String)
    (startLine endLine : Nat) : String :=
  let skip_lines := if startLine ≥ context_lines then startLine - context_lines else 0
  let take := (endLine - startLine) + context_lines
  String.join (((lines.drop skip_lines).take take).enum.map
    (fun p => toString (skip_lines + p.1) ++ " " ++ p.2 ++ "\n"))

/-- The snippet the specification describes: all lines from the start line
minus the context (clamped at zero) through the end line plus the
context, inclusive, with the same line-number prefixes. -/
def claimCodeSnip (context_lines : Nat) (lines : List String)
    (startLine endLine : Nat) : String :=
  let lo := if startLine ≥ context_lines then startLine - context_lines else 0
  String.join (((lines.drop lo).take (endLine + context_lines + 1 - lo)).enum.map
    (fun p => toString (lo + p.1) ++ " " ++ p.2 ++ "\n"))

/- ## Concrete instances used by witnesses and counterexamples -/

/-- A two-node graph: node 1 is a ClassDef with a precedence-10 edge to
node 0, a NamespaceDeclaration spine root. -/
def fqdnDemoGraph : FqdnGraph where
  nodes := fun n => if n = 0 then ⟨"System", .namespaceDeclaration⟩ else ⟨"String", .classDef⟩
  edges := fun n => if n = 1 then [⟨0, 10⟩] else []
  fqdn_acyclic := by
    intro n e he hp
    by_cases h1 : n = 1
    · subst h1
      simp at he
      subst he
      exact Nat.zero_lt_one
    · simp [h1] at he

/-- A graph with a single non-precedence-10 edge from node 1 to node 0 and
a precedence-10 self-loop on node 1. -/
def travDemoGraph : TravGraph where
  nodes := fun _ => ⟨none, false, none⟩
  edges := fun n => if n = 1 then [⟨0, 0⟩, ⟨1, 10⟩] else []

/-- A matcher model that accepts nothing. -/
def emptyMatcher : SymbolMatcherModel where
  match_symbol := fun _ => false
  match_fqdn := fun _ => false

/-- An eight-line file used by the code-snippet evaluation. -/
def demoLines : List String :=
  ["l0", "l1", "l2", "l3", "l4", "l5", "l6", "l7"]

/-- A stored field Fqdn as produced by the field matcher construction of
the repository's own namespace_query test graph: namespace
System.Configuration, class ConfigurationManager, field AppSettings, no
method component. -/
def appSettingsFqdn : Fqdn :=
  ⟨some "System.Configuration", some "ConfigurationManager", none, some "AppSettings"⟩

/-- Dedup counterexample data: two distinct hits sharing the grouping key
(file f, line 1) and the span tuple (0, 0, 3). -/
def dupHitA : ResultNode :=
  { file_uri := "f", line_number := 1, vars := [],
    code_location := ⟨⟨1, 0⟩, ⟨1, 3⟩⟩ }

/-- The second dedup counterexample hit: same key and span tuple as
dupHitA but on a different source line. -/
def dupHitB : ResultNode :=
  { file_uri := "f", line_number := 1, vars := [],
    code_location := ⟨⟨2, 0⟩, ⟨2, 3⟩⟩ }

/-- Sort counterexample data: a hit on line 2 of file f. -/
def sortHitLine2 : ResultNode :=
  { file_uri := "f", line_number := 2, vars := [],
    code_location := ⟨⟨2, 0⟩, ⟨2, 3⟩⟩ }

/-- Sort counterexample data: a hit on line 10 of file f. -/
def sortHitLine10 : ResultNode :=
  { file_uri := "f", line_number := 10, vars := [],
    code_location := ⟨⟨10, 0⟩, ⟨10, 3⟩⟩ }

/-- An empty traversal graph for the namespace-error witness. -/
def emptyTravGraph : TravGraph where
  nodes := fun _ => ⟨none, false, none⟩
  edges := fun _ => []

/- ## Auxiliary predicates for the deduplication proofs -/

/-- Lookup in the association-list model of the BTreeMap. -/
def alookup (k : String × Nat) : List ((String × Nat) × ResultNode) → Option ResultNode
  | [] => none
  | (k', v) :: t => if k' = k then some v else alookup k t

/-- One step of the per-group folding semantics of the dedup: the first
hit is kept as is, later hits go through the and_modify comparison. -/
def optBetter (o : Option ResultNode) (r : ResultNode) : ResultNode :=
  match o with
  | none => r
  | some c => betterOf c r

/-- Well-formedness of the association-list model of the BTreeMap:
entries are strictly sorted by key and each entry is stored under the
key of its value. -/
def mapWF (m : List ((String × Nat) × ResultNode)) : Prop :=
  m.Pairwise (fun a b => keyLt a.1 b.1) ∧ ∀ e ∈ m, rnKey e.2 = e.1

/- ## Helper lemmas: the character-list order -/

theorem charListLt_irrefl : ∀ l : List Char, charListLt l l = false := by
  intro l
  induction l with
  | nil => rfl
  | cons a as ih =>
    simp only [charListLt, lt_irrefl, if_false, if_pos rfl, ih, if_true]

theorem charListLt_asymm : ∀ a b : List Char,
    charListLt a b = true → charListLt b a = false := by
  intro a
  induction a with
  | nil =>
    intro b h
    cases b with
    | nil => simpa [charListLt] using h
    | cons x xs => rfl
  | cons x xs ih =>
    intro b h
    cases b with
    | nil => simp [charListLt] at h
    | cons y ys =>
      simp only [charListLt] at h ⊢
      by_cases hxy : x < y
      · have hyx : ¬ y < x := lt_asymm hxy
        have hne : ¬ y = x := fun he => absurd (he ▸ hxy) (lt_irrefl x)
        simp [hyx, hne]
      · by_cases hxe : x = y
        · subst hxe
          simp only [if_neg hxy, if_pos rfl] at h
          simp [lt_irrefl, ih _ h]
        · simp [hxy, hxe] at h

theorem charListLt_trans : ∀ a b c : List Char,
    charListLt a b = true → charListLt b c = true → charListLt a c = true := by
  intro a
  induction a with
  | nil =>
    intro b c hab hbc
    cases b with
    | nil => simp [charListLt] at hab
    | cons y ys =>
      cases c with
      | nil => simp [charListLt] at hbc
      | cons z zs => rfl
  | cons x xs ih =>
    intro b c hab hbc
    cases b with
    | nil => simp [charListLt] at hab
    | cons y ys =>
      cases c with
      | nil => simp [charListLt] at hbc
      | cons z zs =>
        simp only [charListLt] at hab hbc ⊢
        by_cases hxy : x < y
        · by_cases hyz : y < z
          · simp [lt_trans hxy hyz]
          · by_cases hyze : y = z
            · subst hyze; simp [hxy]
            · simp [hyz, hyze] at hbc
        · by_cases hxye : x = y
          · subst hxye
            simp only [if_neg hxy, if_pos rfl] at hab
            by_cases hyz : x < z
            · simp [hyz]
            · by_cases hyze : x = z
              · subst hyze
                simp only [if_neg hyz, if_pos rfl] at hbc ⊢
                exact ih _ _ hab hbc
              · simp [hyz, hyze] at hbc
          · simp [hxy, hxye] at hab

theorem charListLt_trichotomy : ∀ a b : List Char,
    charListLt a b = true ∨ a = b ∨ charListLt b a = true := by
  intro a
  induction a with
  | nil =>
    intro b
    cases b with
    | nil => exact Or.inr (Or.inl rfl)
    | cons y ys => exact Or.inl rfl
  | cons x xs ih =>
    intro b
    cases b with
    | nil => exact Or.inr (Or.inr rfl)
    | cons y ys =>
      rcases lt_trichotomy x y with hlt | heq | hgt
      · exact Or.inl (by simp [charListLt, hlt])
      · subst heq
        rcases ih ys with h | h | h
        · exact Or.inl (by simp [charListLt, lt_irrefl, h])
        · exact Or.inr (Or.inl (by rw [h]))
        · exact Or.inr (Or.inr (by simp [charListLt, lt_irrefl, h]))
      · have hne : ¬ x < y := lt_asymm hgt
        have hne2 : ¬ y = x := fun he => absurd (he ▸ hgt) (lt_irrefl y)
        have hne3 : ¬ x = y := fun he => hne2 he.symm
        exact Or.inr (Or.inr (by simp [charListLt, hgt]))

theorem charListLt_toList_inj {a b : String} (h : a.toList = b.toList) : a = b := by
  cases a; cases b
  simp only [String.toList] at h
  exact congrArg String.mk h

/- ## Helper lemmas: the dedup orders -/

theorem keyLt_irrefl : ∀ k : String × Nat, ¬ keyLt k k := by
  intro k h
  rcases h with h | ⟨_, h⟩
  · rw [charListLt_irrefl] at h; exact Bool.false_ne_true h
  · exact lt_irrefl _ h

theorem keyLt_trans : ∀ a b c : String × Nat, keyLt a b → keyLt b c → keyLt a c := by
  intro a b c hab hbc
  rcases hab with h1 | ⟨he1, h1⟩
  · rcases hbc with h2 | ⟨he2, h2⟩
    · exact Or.inl (charListLt_trans _ _ _ h1 h2)
    · exact Or.inl (he2 ▸ h1)
  · rcases hbc with h2 | ⟨he2, h2⟩
    · exact Or.inl (he1 ▸ h2)
    · exact Or.inr ⟨he1.trans he2, h1.trans h2⟩

theorem keyLt_asymm : ∀ a b : String × Nat, keyLt a b → ¬ keyLt b a := by
  intro a b hab hba
  exact keyLt_irrefl a (keyLt_trans a b a hab hba)

theorem keyLt_trichotomy : ∀ a b : String × Nat, keyLt a b ∨ a = b ∨ keyLt b a := by
  intro a b
  rcases charListLt_trichotomy a.1.toList b.1.toList with h | h | h
  · exact Or.inl (Or.inl h)
  · have he : a.1 = b.1 := charListLt_toList_inj h
    rcases Nat.lt_trichotomy a.2 b.2 with h2 | h2 | h2
    · exact Or.inl (Or.inr ⟨he, h2⟩)
    · exact Or.inr (Or.inl (Prod.ext he h2))
    · exact Or.inr (Or.inr (Or.inr ⟨he.symm, h2⟩))
  · exact Or.inr (Or.inr (Or.inl h))

theorem tupLt_irrefl : ∀ t : Nat × Nat × Nat, ¬ tupLt t t := by
  intro t h
  rcases h with h | ⟨_, h | ⟨_, h⟩⟩ <;> exact lt_irrefl _ h

theorem tupLt_trans : ∀ a b c : Nat × Nat × Nat, tupLt a b → tupLt b c → tupLt a c := by
  intro ⟨a1, a2, a3⟩ ⟨b1, b2, b3⟩ ⟨c1, c2, c3⟩ hab hbc
  unfold tupLt at hab hbc ⊢
  omega

theorem tupLt_trichotomy : ∀ a b : Nat × Nat × Nat, tupLt a b ∨ a = b ∨ tupLt b a := by
  intro ⟨a1, a2, a3⟩ ⟨b1, b2, b3⟩
  simp only [tupLt, Prod.mk.injEq]
  omega

theorem tupLe_refl : ∀ t : Nat × Nat × Nat, tupLe t t :=
  fun t => tupLt_irrefl t

theorem tupLe_of_eq {a b : Nat × Nat × Nat} (h : a = b) : tupLe a b := h ▸ tupLe_refl a

theorem tupLe_antisymm {a b : Nat × Nat × Nat} (h1 : tupLe a b) (h2 : tupLe b a) : a = b := by
  rcases tupLt_trichotomy a b with h | h | h
  · exact absurd h h2
  · exact h
  · exact absurd h h1

theorem tupLe_trans {a b c : Nat × Nat × Nat} (h1 : tupLe a b) (h2 : tupLe b c) : tupLe a c := by
  intro h
  rcases tupLt_trichotomy a b with hab | hab | hab
  · exact h2 (tupLt_trans _ _ _ h hab)
  · exact h2 (hab ▸ h)
  · exact h1 hab

theorem tupLe_of_lt {a b : Nat × Nat × Nat} (h : tupLt a b) : tupLe a b := by
  intro hba
  exact tupLt_irrefl a (tupLt_trans _ _ _ h hba)

/- ## Helper lemmas: the deduplication map -/

theorem btreeUpsert_key_mem : ∀ (m : List ((String × Nat) × ResultNode)) (r : ResultNode) x,
    x ∈ btreeUpsert r m → x.1 = rnKey r ∨ x ∈ m := by
  intro m r
  induction m with
  | nil =>
    intro x hx
    simp only [btreeUpsert, List.mem_singleton] at hx
    exact Or.inl (by rw [hx])
  | cons e rest ih =>
    intro x hx
    obtain ⟨k, v⟩ := e
    simp only [btreeUpsert] at hx
    by_cases h1 : rnKey r = k
    · simp only [if_pos h1, List.mem_cons] at hx
      rcases hx with hx | hx
      · exact Or.inl (by rw [hx]; exact h1.symm)
      · exact Or.inr (List.mem_cons_of_mem _ hx)
    · simp only [if_neg h1] at hx
      by_cases h2 : keyLt (rnKey r) k
      · simp only [if_pos h2, List.mem_cons] at hx
        rcases hx with hx | hx | hx
        · exact Or.inl (by rw [hx])
        · exact Or.inr (List.mem_cons.mpr (Or.inl hx))
        · exact Or.inr (List.mem_cons_of_mem _ hx)
      · simp only [if_neg h2, List.mem_cons] at hx
        rcases hx with hx | hx
        · exact Or.inr (List.mem_cons.mpr (Or.inl hx))
        · rcases ih x hx with h | h
          · exact Or.inl h
          · exact Or.inr (List.mem_cons_of_mem _ h)

theorem btreeUpsert_wf : ∀ (m : List ((String × Nat) × ResultNode)) (r : ResultNode),
    mapWF m → mapWF (btreeUpsert r m) := by
  intro m r
  induction m with
  | nil =>
    intro _
    refine ⟨List.pairwise_singleton _ _, ?_⟩
    intro e he
    simp only [btreeUpsert, List.mem_singleton] at he
    rw [he]
  | cons e rest ih =>
    intro hwf
    obtain ⟨k, v⟩ := e
    obtain ⟨hpw, hbind⟩ := hwf
    have hpw_rest : rest.Pairwise (fun a b => keyLt a.1 b.1) := hpw.of_cons
    have hhead : ∀ x ∈ rest, keyLt k x.1 := by
      intro x hx
      exact (List.pairwise_cons.mp hpw).1 x hx
    have hbind_rest : ∀ x ∈ rest, rnKey x.2 = x.1 := by
      intro x hx
      exact hbind x (List.mem_cons_of_mem _ hx)
    simp only [btreeUpsert]
    by_cases h1 : rnKey r = k
    · simp only [if_pos h1]
      refine ⟨List.pairwise_cons.mpr ⟨hhead, hpw_rest⟩, ?_⟩
      intro x hx
      rcases List.mem_cons.mp hx with hx | hx
      · rw [hx]
        unfold betterOf
        by_cases hb : tupLt (spanTuple r) (spanTuple v)
        · simp only [if_pos hb]
          exact h1
        · simp only [if_neg hb]
          exact hbind (k, v) (List.mem_cons_self _ _)
      · exact hbind_rest x hx
    · simp only [if_neg h1]
      by_cases h2 : keyLt (rnKey r) k
      · simp only [if_pos h2]
        refine ⟨List.pairwise_cons.mpr ⟨?_, List.pairwise_cons.mpr ⟨hhead, hpw_rest⟩⟩, ?_⟩
        · intro x hx
          rcases List.mem_cons.mp hx with hx | hx
          · rw [hx]
            exact h2
          · exact keyLt_trans _ _ _ h2 (hhead x hx)
        · intro x hx
          rcases List.mem_cons.mp hx with hx | hx
          · rw [hx]
          · rcases List.mem_cons.mp hx with hx | hx
            · rw [hx]
              exact hbind (k, v) (List.mem_cons_self _ _)
            · exact hbind_rest x hx
      · simp only [if_neg h2]
        obtain ⟨ihp, ihb⟩ := ih ⟨hpw_rest, hbind_rest⟩
        refine ⟨List.pairwise_cons.mpr ⟨?_, ihp⟩, ?_⟩
        · intro x hx
          rcases btreeUpsert_key_mem rest r x hx with hx1 | hx1
          · rw [hx1]
            rcases keyLt_trichotomy k (rnKey r) with h | h | h
            · exact h
            · exact absurd h.symm h1
            · exact absurd h h2
          · exact hhead x hx1
        · intro x hx
          rcases List.mem_cons.mp hx with hx | hx
          · rw [hx]
            exact hbind (k, v) (List.mem_cons_self _ _)
          · exact ihb x hx

theorem alookup_none_of_keyLt_all :
    ∀ (m : List ((String × Nat) × ResultNode)) (k : String × Nat),
    (∀ e ∈ m, keyLt k e.1) → alookup k m = none := by
  intro m k
  induction m with
  | nil => intro _; rfl
  | cons e rest ih =>
    intro h
    obtain ⟨k', v⟩ := e
    have hne : k' ≠ k := by
      intro he
      exact keyLt_irrefl k (he ▸ h (k', v) (List.mem_cons_self _ _))
    simp only [alookup, if_neg hne]
    exact ih (fun x hx => h x (List.mem_cons_of_mem _ hx))

theorem alookup_btreeUpsert :
    ∀ (m : List ((String × Nat) × ResultNode)) (r : ResultNode) (k : String × Nat),
    mapWF m →
    alookup k (btreeUpsert r m) =
      if rnKey r = k then some (optBetter (alookup k m) r) else alookup k m := by
  intro m r
  induction m with
  | nil =>
    intro k _
    by_cases h : rnKey r = k
    · simp [btreeUpsert, alookup, h, optBetter]
    · simp [btreeUpsert, alookup, h]
  | cons e rest ih =>
    intro k hwf
    obtain ⟨k', v⟩ := e
    obtain ⟨hpw, hbind⟩ := hwf
    have hwf_rest : mapWF rest :=
      ⟨hpw.of_cons, fun x hx => hbind x (List.mem_cons_of_mem _ hx)⟩
    have hhead : ∀ x ∈ rest, keyLt k' x.1 := fun x hx => (List.pairwise_cons.mp hpw).1 x hx
    simp only [btreeUpsert]
    by_cases h1 : rnKey r = k'
    · simp only [if_pos h1]
      by_cases h2 : k' = k
      · subst h2
        simp [alookup, h1, optBetter]
      · have h3 : ¬ rnKey r = k := fun hc => h2 (h1.symm.trans hc)
        simp [alookup, h2, h3]
    · simp only [if_neg h1]
      by_cases h2 : keyLt (rnKey r) k'
      · simp only [if_pos h2]
        by_cases h3 : rnKey r = k
        · subst h3
          have hnone : alookup (rnKey r) ((k', v) :: rest) = none := by
            apply alookup_none_of_keyLt_all
            intro x hx
            rcases List.mem_cons.mp hx with hx | hx
            · rw [hx]; exact h2
            · exact keyLt_trans _ _ _ h2 (hhead x hx)
          rw [hnone]
          simp [alookup, optBetter]
        · simp [alookup, h3]
      · simp only [if_neg h2]
        by_cases h3 : k' = k
        · subst h3
          have h4 : ¬ rnKey r = k' := h1
          simp [alookup, if_neg h4]
        · simp only [alookup, if_neg h3]
          exact ih k hwf_rest

theorem mem_iff_alookup :
    ∀ (m : List ((String × Nat) × ResultNode)), mapWF m →
    ∀ (k : String × Nat) (v : ResultNode), ((k, v) ∈ m ↔ alookup k m = some v) := by
  intro m
  induction m with
  | nil =>
    intro _ k v
    simp [alookup]
  | cons e rest ih =>
    intro hwf k v
    obtain ⟨k', v'⟩ := e
    obtain ⟨hpw, hbind⟩ := hwf
    have hwf_rest : mapWF rest :=
      ⟨hpw.of_cons, fun x hx => hbind x (List.mem_cons_of_mem _ hx)⟩
    have hhead : ∀ x ∈ rest, keyLt k' x.1 := fun x hx => (List.pairwise_cons.mp hpw).1 x hx
    constructor
    · intro hmem
      rcases List.mem_cons.mp hmem with h | h
      · injection h with he1 he2
        subst he1
        subst he2
        simp [alookup]
      · have hne : k' ≠ k := by
          intro he
          exact keyLt_irrefl k (he ▸ hhead (k, v) h)
        simp only [alookup, if_neg hne]
        exact (ih hwf_rest k v).mp h
    · intro hl
      simp only [alookup] at hl
      by_cases h : k' = k
      · subst h
        simp at hl
        subst hl
        exact List.mem_cons_self _ _
      · simp only [if_neg h] at hl
        exact List.mem_cons_of_mem _ ((ih hwf_rest k v).mpr hl)

theorem foldl_btreeUpsert_wf :
    ∀ (l : List ResultNode) (m : List ((String × Nat) × ResultNode)),
    mapWF m → mapWF (l.foldl (fun m r => btreeUpsert r m) m) := by
  intro l
  induction l with
  | nil => intro m hm; exact hm
  | cons r l ih =>
    intro m hm
    exact ih _ (btreeUpsert_wf m r hm)

theorem dedupMap_wf (l : List ResultNode) : mapWF (dedupMap l) :=
  foldl_btreeUpsert_wf l [] ⟨List.Pairwise.nil, by intro e he; cases he⟩

theorem alookup_dedup_fold :
    ∀ (l : List ResultNode) (m : List ((String × Nat) × ResultNode)) (k : String × Nat),
    mapWF m →
    alookup k (l.foldl (fun m r => btreeUpsert r m) m) =
      (l.filter (fun r => decide (rnKey r = k))).foldl
        (fun o r => some (optBetter o r)) (alookup k m) := by
  intro l
  induction l with
  | nil => intro m k _; rfl
  | cons r l ih =>
    intro m k hm
    simp only [List.foldl_cons, List.filter_cons]
    rw [ih _ k (btreeUpsert_wf m r hm)]
    rw [alookup_btreeUpsert m r k hm]
    by_cases h : rnKey r = k
    · simp [h]
    · simp [h]

theorem alookup_dedupMap (l : List ResultNode) (k : String × Nat) :
    alookup k (dedupMap l) =
      (l.filter (fun r => decide (rnKey r = k))).foldl
        (fun o r => some (optBetter o r)) none := by
  have := alookup_dedup_fold l [] k ⟨List.Pairwise.nil, by intro e he; cases he⟩
  simpa [dedupMap, alookup] using this

theorem foldl_optBetter_spec :
    ∀ (group : List ResultNode) (o : Option ResultNode) (res : ResultNode),
    group.foldl (fun o r => some (optBetter o r)) o = some res →
    ((o = some res ∨ res ∈ group) ∧
     (∀ c, o = some c → tupLe (spanTuple res) (spanTuple c)) ∧
     (∀ s ∈ group, tupLe (spanTuple res) (spanTuple s))) := by
  intro group
  induction group with
  | nil =>
    intro o res h
    simp only [List.foldl_nil] at h
    refine ⟨Or.inl h, ?_, ?_⟩
    · intro c hc
      rw [h] at hc
      cases hc
      exact tupLe_refl _
    · intro s hs; cases hs
  | cons g gs ih =>
    intro o res h
    simp only [List.foldl_cons] at h
    obtain ⟨h1, h2, h3⟩ := ih (some (optBetter o g)) res h
    have hog : tupLe (spanTuple res) (spanTuple (optBetter o g)) := h2 _ rfl
    have hres_g : tupLe (spanTuple res) (spanTuple g) := by
      cases o with
      | none => exact hog
      | some c =>
        simp only [optBetter, betterOf] at hog
        by_cases hb : tupLt (spanTuple g) (spanTuple c)
        · simpa [hb] using hog
        · exact tupLe_trans (by simpa [hb] using hog) hb
    refine ⟨?_, ?_, ?_⟩
    · rcases h1 with h1 | h1
      · cases o with
        | none =>
          simp only [optBetter] at h1
          cases h1
          exact Or.inr (List.mem_cons_self _ _)
        | some c =>
          simp only [optBetter, betterOf] at h1
          by_cases hb : tupLt (spanTuple g) (spanTuple c)
          · simp only [if_pos hb] at h1
            cases h1
            exact Or.inr (List.mem_cons_self _ _)
          · simp only [if_neg hb] at h1
            exact Or.inl h1
      · exact Or.inr (List.mem_cons_of_mem _ h1)
    · intro c hc
      subst hc
      cases hx : (some c : Option ResultNode) with
      | none => cases hx
      | some c' =>
        cases hx
        simp only [optBetter, betterOf] at hog
        by_cases hb : tupLt (spanTuple g) (spanTuple c)
        · exact tupLe_trans (by simpa [hb] using hog) (tupLe_of_lt hb)
        · simpa [hb] using hog
    · intro s hs
      rcases List.mem_cons.mp hs with hs | hs
      · exact hs ▸ hres_g
      · exact h3 s hs

theorem foldl_optBetter_isSome :
    ∀ (group : List ResultNode) (o : Option ResultNode),
    group ≠ [] ∨ o.isSome →
    (group.foldl (fun o r => some (optBetter o r)) o).isSome := by
  intro group
  induction group with
  | nil =>
    intro o h
    rcases h with h | h
    · exact absurd rfl h
    · exact h
  | cons g gs ih =>
    intro o _
    simp only [List.foldl_cons]
    exact ih _ (Or.inr rfl)

theorem mem_dedupValues_iff (l : List ResultNode)
    (hinj : ∀ a ∈ l, ∀ b ∈ l, rnKey a = rnKey b → spanTuple a = spanTuple b → a = b)
    (r : ResultNode) :
    r ∈ dedupValues l ↔
      (r ∈ l ∧ ∀ s ∈ l, rnKey s = rnKey r → tupLe (spanTuple r) (spanTuple s)) := by
  constructor
  · intro hmem
    obtain ⟨e, he, hsnd⟩ := List.mem_map.mp hmem
    obtain ⟨k, v⟩ := e
    simp only at hsnd
    have hsnd' : r = v := hsnd.symm
    subst hsnd'
    have hwf := dedupMap_wf l
    have hl : alookup k (dedupMap l) = some r := (mem_iff_alookup _ hwf k r).mp he
    rw [alookup_dedupMap] at hl
    obtain ⟨h1, _, h3⟩ := foldl_optBetter_spec _ none r hl
    rcases h1 with h1 | h1
    · exact absurd h1 (by simp)
    obtain ⟨hrl, hrk⟩ := List.mem_filter.mp h1
    have hrk : rnKey r = k := of_decide_eq_true hrk
    refine ⟨hrl, ?_⟩
    intro s hs hks
    have hsg : s ∈ l.filter (fun x => decide (rnKey x = k)) :=
      List.mem_filter.mpr ⟨hs, decide_eq_true (hks.trans hrk)⟩
    exact h3 s hsg
  · rintro ⟨hrl, hmin⟩
    have hgrp : r ∈ l.filter (fun x => decide (rnKey x = rnKey r)) :=
      List.mem_filter.mpr ⟨hrl, by simp⟩
    have hne : l.filter (fun x => decide (rnKey x = rnKey r)) ≠ [] :=
      List.ne_nil_of_mem hgrp
    have hsome := foldl_optBetter_isSome
      (l.filter (fun x => decide (rnKey x = rnKey r))) none (Or.inl hne)
    obtain ⟨res, hres⟩ := Option.isSome_iff_exists.mp hsome
    obtain ⟨h1, _, h3⟩ := foldl_optBetter_spec _ none res hres
    rcases h1 with h1 | h1
    · exact absurd h1 (by simp)
    obtain ⟨hresl, hresk⟩ := List.mem_filter.mp h1
    have hresk : rnKey res = rnKey r := of_decide_eq_true hresk
    have h4 : tupLe (spanTuple r) (spanTuple res) := hmin res hresl hresk
    have h5 : tupLe (spanTuple res) (spanTuple r) := h3 r hgrp
    have heq : spanTuple res = spanTuple r := tupLe_antisymm h5 h4
    have hres_r : res = r := hinj res hresl r hrl hresk heq
    subst hres_r
    have hlook : alookup (rnKey res) (dedupMap l) = some res := by
      rw [alookup_dedupMap]
      exact hres
    have hmem : (rnKey res, res) ∈ dedupMap l :=
      (mem_iff_alookup _ (dedupMap_wf l) _ res).mpr hlook
    exact List.mem_map.mpr ⟨(rnKey res, res), hmem, rfl⟩

/-- C2: the dedup survivors are, per (file_uri, line_number) group, exactly
the hits whose span tuple (end line minus start line, start column, end
column) is minimal in the group, and under the hypothesis that no two
distinct hits of a group share a span tuple the survivor set is invariant
under any permutation of the input.  This amends the claim: when two
distinct hits of a group tie on the span tuple, the code keeps the first
one in input order, so the claim's unconditional order-independence fails
(see the counterexample). -/
theorem dedup_min_span_characterization (l l' : List ResultNode)
    (hperm : l.Perm l')
    (hinj : ∀ a ∈ l, ∀ b ∈ l, rnKey a = rnKey b → spanTuple a = spanTuple b → a = b) :
    (∀ r, r ∈ dedupValues l ↔
      (r ∈ l ∧ ∀ s ∈ l, rnKey s = rnKey r → tupLe (spanTuple r) (spanTuple s)))
    ∧ (∀ r, r ∈ dedupValues l ↔ r ∈ dedupValues l') := by
  have hinj' : ∀ a ∈ l', ∀ b ∈ l', rnKey a = rnKey b → spanTuple a = spanTuple b → a = b :=
    fun a ha b hb => hinj a (hperm.mem_iff.mpr ha) b (hperm.mem_iff.mpr hb)
  refine ⟨fun r => mem_dedupValues_iff l hinj r, fun r => ?_⟩
  rw [mem_dedupValues_iff l hinj r, mem_dedupValues_iff l' hinj' r]
  constructor
  · rintro ⟨h1, h2⟩
    exact ⟨hperm.mem_iff.mp h1, fun s hs hk => h2 s (hperm.mem_iff.mpr hs) hk⟩
  · rintro ⟨h1, h2⟩
    exact ⟨hperm.mem_iff.mpr h1, fun s hs hk => h2 s (hperm.mem_iff.mp hs) hk⟩

/-- C2 counterexample: two distinct hits that share the grouping key
(file f, line 1) and the span tuple (0, 0, 3).  The dedup of the two
orders of this multiset keeps different representatives, so dedup of a
permutation is not the same set and the claim as stated is false. -/
theorem dedup_order_dependent_on_ties :
    ([dupHitA, dupHitB].Perm [dupHitB, dupHitA]) ∧
    dedupValues [dupHitA, dupHitB] = [dupHitA] ∧
    dedupValues [dupHitB, dupHitA] = [dupHitB] ∧
    dupHitA ≠ dupHitB :=
  ⟨List.Perm.swap dupHitB dupHitA [], by decide, by decide, by decide⟩

/-- Witness for the amended C2 theorem at a concrete tie-free input. -/
theorem dedup_min_span_characterization_witness :
    ([dupHitA, sortHitLine2].Perm [sortHitLine2, dupHitA]) ∧
    (∀ a ∈ [dupHitA, sortHitLine2], ∀ b ∈ [dupHitA, sortHitLine2],
      rnKey a = rnKey b → spanTuple a = spanTuple b → a = b) ∧
    ((∀ r, r ∈ dedupValues [dupHitA, sortHitLine2] ↔
        (r ∈ [dupHitA, sortHitLine2] ∧ ∀ s ∈ [dupHitA, sortHitLine2],
          rnKey s = rnKey r → tupLe (spanTuple r) (spanTuple s)))
      ∧ (∀ r, r ∈ dedupValues [dupHitA, sortHitLine2] ↔
          r ∈ dedupValues [sortHitLine2, dupHitA])) :=
  ⟨List.Perm.swap sortHitLine2 dupHitA [], by decide,
    dedup_min_span_characterization _ _ (List.Perm.swap sortHitLine2 dupHitA []) (by decide)⟩

/- ## Helper lemmas: the final sort -/

theorem rustStrLe_total : ∀ a b : String, rustStrLe a b = true ∨ rustStrLe b a = true := by
  intro a b
  unfold rustStrLe
  cases h : charListLt b.toList a.toList with
  | false => exact Or.inl (by simp)
  | true =>
    refine Or.inr ?_
    rw [charListLt_asymm _ _ h]
    rfl

theorem mem_insertByKey : ∀ (l : List ResultNode) (r y : ResultNode),
    y ∈ insertByKey r l ↔ y = r ∨ y ∈ l := by
  intro l r y
  induction l with
  | nil => simp [insertByKey]
  | cons x xs ih =>
    simp only [insertByKey]
    by_cases h : rustStrLe (incidentSortKey r) (incidentSortKey x) = true
    · simp [h]
    · simp only [if_neg h, List.mem_cons, ih]
      tauto

theorem pairwise_insertByKey :
    ∀ (l : List ResultNode) (r : ResultNode),
    l.Pairwise (fun a b => rustStrLe (incidentSortKey a) (incidentSortKey b) = true) →
    (insertByKey r l).Pairwise
      (fun a b => rustStrLe (incidentSortKey a) (incidentSortKey b) = true) := by
  intro l r
  induction l with
  | nil => intro _; exact List.pairwise_singleton _ _
  | cons x xs ih =>
    intro hpw
    obtain ⟨hhead, hrest⟩ := List.pairwise_cons.mp hpw
    simp only [insertByKey]
    by_cases h : rustStrLe (incidentSortKey r) (incidentSortKey x) = true
    · simp only [if_pos h]
      refine List.pairwise_cons.mpr ⟨?_, hpw⟩
      intro y hy
      rcases List.mem_cons.mp hy with hy | hy
      · exact hy ▸ h
      · have hxy := hhead y hy
        unfold rustStrLe at h hxy ⊢
        simp only [Bool.not_eq_true'] at h hxy ⊢
        by_cases hc : charListLt (incidentSortKey y).toList (incidentSortKey r).toList = true
        · have h1 : charListLt (incidentSortKey y).toList (incidentSortKey x).toList = false := hxy
          rcases charListLt_trichotomy (incidentSortKey x).toList (incidentSortKey y).toList
            with h2 | h2 | h2
          · have := charListLt_trans _ _ _ h2 hc
            rw [this] at h
            exact absurd h (by simp)
          · rw [← h2] at hc
            rw [hc] at h
            exact absurd h (by simp)
          · rw [h1] at h2
            exact absurd h2 (by simp)
        · simpa using hc
    · simp only [if_neg h]
      refine List.pairwise_cons.mpr ⟨?_, ih hrest⟩
      intro y hy
      rcases (mem_insertByKey xs r y).mp hy with hy | hy
      · rw [hy]
        rcases rustStrLe_total (incidentSortKey r) (incidentSortKey x) with h1 | h1
        · exact absurd h1 h
        · exact h1
      · exact hhead y hy

theorem pairwise_sortByKey (l : List ResultNode) :
    (sortByKey l).Pairwise
      (fun a b => rustStrLe (incidentSortKey a) (incidentSortKey b) = true) := by
  induction l with
  | nil => exact List.Pairwise.nil
  | cons x xs ih => exact pairwise_insertByKey _ x ih

theorem perm_insertByKey : ∀ (l : List ResultNode) (r : ResultNode),
    (insertByKey r l).Perm (r :: l) := by
  intro l r
  induction l with
  | nil => exact List.Perm.refl _
  | cons x xs ih =>
    simp only [insertByKey]
    by_cases h : rustStrLe (incidentSortKey r) (incidentSortKey x) = true
    · simp only [if_pos h]
      exact List.Perm.refl _
    · simp only [if_neg h]
      exact (ih.cons x).trans (List.Perm.swap r x xs)

theorem perm_sortByKey : ∀ (l : List ResultNode), (sortByKey l).Perm l := by
  intro l
  induction l with
  | nil => exact List.Perm.refl _
  | cons x xs ih => exact (perm_insertByKey (sortByKey xs) x).trans (ih.cons x)

theorem dedupValues_pairwise_ne (l : List ResultNode) :
    (dedupValues l).Pairwise (fun a b => rnKey a ≠ rnKey b) := by
  obtain ⟨hpw, hbind⟩ := dedupMap_wf l
  unfold dedupValues
  rw [List.pairwise_map]
  refine hpw.imp_of_mem ?_
  intro a b ha hb hlt
  rw [hbind a ha, hbind b hb]
  intro he
  exact keyLt_irrefl a.1 (he ▸ hlt)

/-- C7: the incident list of a successful evaluate response holds at most
one entry per (file_uri, line_number) pair, and it is sorted by the
string key file_uri, dash, decimal line number.  This amends the claim:
the final sort compares that format string, not the five-component
(file_uri, line_number, code_location, syntax_type, symbol) order of the
ResultNode Ord implementation, so e.g. line 10 sorts before line 2 (see
the counterexample). -/
theorem evaluate_incidents_sorted_and_unique (l : List ResultNode) :
    (finalIncidents l).Pairwise
      (fun a b => rustStrLe (incidentSortKey a) (incidentSortKey b) = true)
    ∧ (finalIncidents l).Pairwise (fun a b => rnKey a ≠ rnKey b) := by
  constructor
  · exact pairwise_sortByKey (dedupValues l)
  · unfold finalIncidents
    refine (List.Perm.pairwise_iff ?_ (perm_sortByKey (dedupValues l))).mpr
      (dedupValues_pairwise_ne l)
    intro a b h
    exact fun he => h he.symm

/-- C7 counterexample: two hits on lines 2 and 10 of the same file.  The
evaluate path sorts them by the string key, so the line-10 incident
comes first, although the claimed five-component total order (here the
Ord implementation resultNodeCmp) puts the line-2 incident strictly
first; the returned list is not sorted in that order. -/
theorem evaluate_sort_string_key_cex :
    finalIncidents [sortHitLine2, sortHitLine10] = [sortHitLine10, sortHitLine2] ∧
    resultNodeCmp sortHitLine2 sortHitLine10 = .lt ∧
    ¬ (finalIncidents [sortHitLine2, sortHitLine10]).Pairwise
        (fun a b => resultNodeCmp a b = .lt) :=
  ⟨by decide, by decide, by decide⟩

/- ## Helper lemmas: the pattern matcher -/

theorem partsLoop_iff : ∀ (ps : List SearchPart) (ss : List String),
    Search.partsLoop ps ss = true ↔
      ∀ i, i < min ps.length ss.length →
        (ps.getD i ⟨""⟩).segMatches (ss.getD i "") = true := by
  intro ps
  induction ps with
  | nil =>
    intro ss
    cases ss <;> simp [Search.partsLoop]
  | cons p ps ih =>
    intro ss
    cases ss with
    | nil => simp [Search.partsLoop]
    | cons s ss =>
      simp only [Search.partsLoop, Bool.and_eq_true, ih ss]
      constructor
      · rintro ⟨h1, h2⟩ i hi
        cases i with
        | zero => simpa using h1
        | succ n =>
          have hn : n < min ps.length ss.length := by
            simp only [List.length_cons] at hi
            omega
          simpa using h2 n hn
      · intro h
        refine ⟨?_, ?_⟩
        · have h0 := h 0 (by simp)
          simpa using h0
        · intro i hi
          have hs := h (i + 1) (by
            simp only [List.length_cons]
            omega)
          simpa using hs

/-- C8: Search::match_namespace and Search::partial_namespace compute the
same boolean, and both are true exactly when, splitting the symbol on
dots, the first min(number of pattern segments, number of symbol
segments) segments match pairwise; excess segments on either side are
ignored. -/
theorem match_namespace_eq_partial_namespace (se : Search) (symbol : String) :
    se.match_namespace symbol = se.partial_namespace symbol ∧
    (se.match_namespace symbol = true ↔
      ∀ i, i < min se.parts.length (splitOnChar '.' symbol).length →
        (se.parts.getD i ⟨""⟩).segMatches ((splitOnChar '.' symbol).getD i "") = true) :=
  ⟨rfl, partsLoop_iff se.parts (splitOnChar '.' symbol)⟩

/- ## Helper lemmas: glob and regex semantics -/

theorem globStar_iff (next : List Char → Bool) :
    ∀ s : List Char, globStar next s = true ↔
      ∃ i, i ≤ s.length ∧ next (s.drop i) = true := by
  intro s
  induction s with
  | nil =>
    simp only [globStar]
    constructor
    · intro h
      exact ⟨0, Nat.le_refl 0, h⟩
    · rintro ⟨i, hi, h⟩
      have h0 : i = 0 := Nat.le_zero.mp hi
      subst h0
      exact h
  | cons d t ih =>
    simp only [globStar, Bool.or_eq_true, ih]
    constructor
    · rintro (h | ⟨i, hi, h⟩)
      · exact ⟨0, Nat.zero_le _, h⟩
      · exact ⟨i + 1, Nat.succ_le_succ hi, h⟩
    · rintro ⟨i, hi, h⟩
      cases i with
      | zero => exact Or.inl h
      | succ n => exact Or.inr ⟨n, Nat.succ_le_succ_iff.mp hi, h⟩

theorem globMatch_star_cons (t : List Char) (s : List Char) :
    globMatch ('*' :: t) s = globStar (globMatch t) s := by
  simp [globMatch]

theorem globMatch_append_star_iff :
    ∀ (p : List Char) (s : List Char),
    globMatch (p ++ ['*']) s = true ↔
      ∃ s1 s2, s = s1 ++ s2 ∧ globMatch p s1 = true := by
  intro p
  induction p with
  | nil =>
    intro s
    constructor
    · intro _
      exact ⟨[], s, rfl, rfl⟩
    · intro _
      rw [List.nil_append, globMatch_star_cons, globStar_iff]
      exact ⟨s.length, Nat.le_refl _, by simp [globMatch]⟩
  | cons c q ih =>
    intro s
    by_cases hc : c = '*'
    · subst hc
      rw [List.cons_append, globMatch_star_cons, globStar_iff]
      constructor
      · rintro ⟨i, hi, h⟩
        obtain ⟨s1, s2, hs, h1⟩ := (ih _).mp h
        refine ⟨s.take i ++ s1, s2, ?_, ?_⟩
        · conv_lhs => rw [← List.take_append_drop i s]
          rw [hs, List.append_assoc]
        · rw [globMatch_star_cons, globStar_iff]
          refine ⟨(s.take i).length, by simp, ?_⟩
          rw [List.drop_left]
          exact h1
      · rintro ⟨s1, s2, hs, h1⟩
        rw [globMatch_star_cons, globStar_iff] at h1
        obtain ⟨j, hj, h1⟩ := h1
        refine ⟨j, ?_, ?_⟩
        · rw [hs, List.length_append]
          omega
        · refine (ih _).mpr ⟨s1.drop j, s2, ?_, h1⟩
          rw [hs, List.drop_append_of_le_length hj]
    · cases s with
      | nil =>
        constructor
        · intro h
          rw [List.cons_append] at h
          simp [globMatch, hc] at h
        · rintro ⟨s1, s2, hs, h1⟩
          obtain ⟨h2, h3⟩ := List.append_eq_nil.mp hs.symm
          subst h2
          simp [globMatch, hc] at h1
      | cons d t =>
        rw [List.cons_append]
        simp only [globMatch, if_neg hc, Bool.and_eq_true, beq_iff_eq, ih t]
        constructor
        · rintro ⟨hcd, s1, s2, hs, h1⟩
          refine ⟨d :: s1, s2, by rw [List.cons_append, hs], ?_⟩
          simp [globMatch, if_neg hc, hcd, h1]
        · rintro ⟨s1, s2, hs, h1⟩
          cases s1 with
          | nil =>
            simp [globMatch, hc] at h1
          | cons e s1' =>
            rw [List.cons_append] at hs
            injection hs with h2 h3
            subst h2
            simp only [globMatch, if_neg hc, Bool.and_eq_true, beq_iff_eq] at h1
            exact ⟨h1.1, s1', s2, h3, h1.2⟩

theorem regexIsMatch_iff (p s : List Char) :
    regexIsMatch p s = true ↔
      ∃ pre mid suf, s = pre ++ mid ++ suf ∧ globMatch p mid = true := by
  unfold regexIsMatch
  rw [globMatch_star_cons, globStar_iff]
  constructor
  · rintro ⟨i, hi, h⟩
    obtain ⟨mid, suf, hs, h1⟩ := (globMatch_append_star_iff p _).mp h
    refine ⟨s.take i, mid, suf, ?_, h1⟩
    conv_lhs => rw [← List.take_append_drop i s]
    rw [hs, List.append_assoc]
  · rintro ⟨pre, mid, suf, hs, h1⟩
    refine ⟨pre.length, ?_, ?_⟩
    · rw [hs]
      simp [List.length_append]
    · rw [hs, List.append_assoc, List.drop_left]
      exact (globMatch_append_star_iff p _).mpr ⟨mid, suf, rfl, h1⟩

theorem map_mk_getLastD : ∀ (l : List String) (d : String),
    (l.map (fun p => (⟨p⟩ : SearchPart))).getLastD ⟨d⟩ = ⟨l.getLastD d⟩ := by
  intro l
  induction l with
  | nil => intro d; rfl
  | cons x xs ih =>
    intro d
    simp only [List.map_cons, List.getLastD_cons, ih]

theorem create_search_last (q : String) :
    (Search.create_search q).parts.getLastD ⟨""⟩ =
      ⟨(splitOnChar '.' q).getLastD ""⟩ := by
  unfold Search.create_search
  exact map_mk_getLastD (splitOnChar '.' q) ""

/-- C4: the last pattern segment decides match_symbol, but a segment
containing a star matches through an unanchored regex search: the
compiled glob only has to match some contiguous substring of the symbol,
not the symbol as a whole.  A literal segment is compared by equality.
This amends the claim, which asserted whole-symbol matching for starred
segments (see the counterexample). -/
theorem match_symbol_last_segment (q s : String) :
    Search.match_symbol (Search.create_search q) s = true ↔
      (if ((splitOnChar '.' q).getLastD "").toList.contains '*'
       then ∃ pre mid suf, s.toList = pre ++ mid ++ suf ∧
         globMatch ((splitOnChar '.' q).getLastD "").toList mid = true
       else s = (splitOnChar '.' q).getLastD "") := by
  rw [Search.match_symbol, create_search_last]
  unfold SearchPart.segMatches SearchPart.isRegex
  by_cases h : ((splitOnChar '.' q).getLastD "").toList.contains '*'
  · simp only [h, if_true]
    exact regexIsMatch_iff _ _
  · simp only [h, Bool.false_eq_true, if_false, beq_iff_eq]
    exact eq_comm

/-- C4 counterexample: the single-segment pattern ab* and the symbol xab.
match_symbol accepts the symbol because the regex matches the substring
ab, although the glob ab* does not match the whole symbol (it would have
to start with ab). -/
theorem match_symbol_substring_cex :
    Search.match_symbol (Search.create_search "ab*") "xab" = true ∧
    globMatch "ab*".toList "xab".toList = false :=
  ⟨by decide, by decide⟩

/-- C1: the field matcher misses a stored field FQDN.  The stored Fqdn has
class ConfigurationManager and field AppSettings (exactly what the field
matcher construction stores for a field definition, and what the
repository's own namespace_query test expects to match), so the claimed
behaviour accepts the dotted symbol; but FieldSymbols::match_symbol
compares the symbol's field part against the method component of each
stored Fqdn, which is unset for field FQDNs, and returns false. -/
theorem field_match_symbol_reads_method_component :
    FieldSymbols.match_symbol ⟨[appSettingsFqdn]⟩ "ConfigurationManager.AppSettings" = false ∧
    fieldClaimMatch ⟨[appSettingsFqdn]⟩ "ConfigurationManager.AppSettings" = true ∧
    appSettingsFqdn.cls = some "ConfigurationManager" ∧
    appSettingsFqdn.field = some "AppSettings" ∧
    appSettingsFqdn.method = none :=
  ⟨by decide, by decide, rfl, rfl, rfl⟩

/-- C9: the code snippet range.  With two context lines and a span that
starts and ends on line 5 of an eight-line file, the implementation
returns only lines 3 and 4: it skips to the start line minus the context
but takes only (end - start) + context lines, so the trailing context
and even the span's own end line are missing.  The claimed range runs
through end line plus context, that is lines 3 to 7. -/
theorem code_snip_take_range_bug :
    get_code_snip 2 demoLines 5 5 = "3 l3\n4 l4\n" ∧
    claimCodeSnip 2 demoLines 5 5 = "3 l3\n4 l4\n5 l5\n6 l6\n7 l7\n" ∧
    get_code_snip 2 demoLines 5 5 ≠ claimCodeSnip 2 demoLines 5 5 :=
  ⟨by decide, by decide, by decide⟩

/-- C3: the namespace-not-found plumbing.  When the search over the
definition roots finds no FQDN, NamespaceSymbols::new fails with the
dedicated NamespaceFQDNNotFoundError and with no other error; the
evaluate RPC converts exactly that error into a successful response with
matched false and no incidents, while every other query error becomes a
failure response. -/
theorem namespace_not_found_plumbing (g : TravGraph) (search : Search)
    (fq : Nat → Option Fqdn) (fuel : Nat) (roots : List Nat)
    (hnone : nsFindFqdn g search fq fuel roots = none) :
    NamespaceSymbols.new g search fq fuel roots = .error .namespaceNotFound ∧
    (∀ e, NamespaceSymbols.new g search fq fuel roots = .error e →
      e = .namespaceNotFound) ∧
    evaluateResult (.error .namespaceNotFound) =
      { error := "", successful := true,
        response := some { matched := false, incident_contexts := [] } } ∧
    (∀ msg, evaluateResult (.error (.other msg)) =
      { error := msg, successful := false, response := none }) := by
  have h1 : NamespaceSymbols.new g search fq fuel roots = .error .namespaceNotFound := by
    unfold NamespaceSymbols.new
    rw [hnone]
  refine ⟨h1, ?_, rfl, fun msg => rfl⟩
  intro e he
  rw [h1] at he
  injection he with he
  exact he.symm

/-- Witness for the C3 theorem on a graph with a single edgeless root. -/
theorem namespace_not_found_plumbing_witness :
    nsFindFqdn emptyTravGraph (Search.create_search "x") (fun _ => none) 3 [0] = none ∧
    (NamespaceSymbols.new emptyTravGraph (Search.create_search "x")
        (fun _ => none) 3 [0] = .error .namespaceNotFound ∧
      (∀ e, NamespaceSymbols.new emptyTravGraph (Search.create_search "x")
          (fun _ => none) 3 [0] = .error e → e = .namespaceNotFound) ∧
      evaluateResult (.error .namespaceNotFound) =
        { error := "", successful := true,
          response := some { matched := false, incident_contexts := [] } } ∧
      (∀ msg, evaluateResult (.error (.other msg)) =
        { error := msg, successful := false, response := none })) :=
  ⟨rfl, namespace_not_found_plumbing emptyTravGraph (Search.create_search "x")
    (fun _ => none) 3 [0] rfl⟩

/- ## FQDN reconstruction theorems -/

theorem get_fqdn_isSome_of_hierarchical (g : FqdnGraph) (n : Nat)
    (h : (g.nodes n).syntax_type.isHierarchical = true) :
    ∃ f, get_fqdn g n = some f := by
  rw [get_fqdn]
  split
  · cases hst : (g.nodes n).syntax_type <;> rw [hst] at h
    all_goals first
      | exact ⟨_, rfl⟩
      | exact absurd h (by decide)
  · split
    · exact ⟨_, rfl⟩
    · cases hst : (g.nodes n).syntax_type <;> rw [hst] at h
      all_goals first
        | exact ⟨_, rfl⟩
        | exact absurd h (by decide)

/-- C5: the recursive step of FQDN reconstruction.  For a node with a
precedence-10 edge to a node m, both carrying one of the four
hierarchical syntax types, get_fqdn of the node is get_fqdn of m with
the node's symbol appended (dot-joined when already present) to the
Fqdn field selected by the node's syntax type. -/
theorem get_fqdn_step (g : FqdnGraph) (n : Nat) (e : GEdge)
    (hedge : fqdn_edge g n = some e)
    (hn : (g.nodes n).syntax_type.isHierarchical = true)
    (hm : (g.nodes e.sink).syntax_type.isHierarchical = true) :
    ∃ f fn, get_fqdn g e.sink = some f ∧
      fqdnAppend f (g.nodes n).syntax_type (g.nodes n).symbol = some fn ∧
      get_fqdn g n = some fn := by
  obtain ⟨f, hf⟩ := get_fqdn_isSome_of_hierarchical g e.sink hm
  have happ : ∃ fn, fqdnAppend f (g.nodes n).syntax_type (g.nodes n).symbol = some fn := by
    cases hst : (g.nodes n).syntax_type <;> rw [hst] at hn
    all_goals first
      | exact ⟨_, rfl⟩
      | exact absurd hn (by decide)
  obtain ⟨fn, hfn⟩ := happ
  refine ⟨f, fn, hf, hfn, ?_⟩
  rw [get_fqdn]
  split
  next heq =>
    rw [hedge] at heq
    exact absurd heq (by simp)
  next e' heq =>
    rw [hedge] at heq
    injection heq with heq
    subst heq
    rw [hf]
    exact hfn

/-- Witness for the C5 theorem on the two-node demo graph: the String
class node 1 has a precedence-10 edge to the System namespace node 0. -/
theorem get_fqdn_step_witness :
    fqdn_edge fqdnDemoGraph 1 = some ⟨0, 10⟩ ∧
    (fqdnDemoGraph.nodes 1).syntax_type.isHierarchical = true ∧
    (fqdnDemoGraph.nodes (GEdge.mk 0 10).sink).syntax_type.isHierarchical = true ∧
    (∃ f fn, get_fqdn fqdnDemoGraph (GEdge.mk 0 10).sink = some f ∧
      fqdnAppend f (fqdnDemoGraph.nodes 1).syntax_type
        (fqdnDemoGraph.nodes 1).symbol = some fn ∧
      get_fqdn fqdnDemoGraph 1 = some fn) :=
  ⟨rfl, rfl, rfl, get_fqdn_step fqdnDemoGraph 1 ⟨0, 10⟩ rfl rfl rfl⟩

/- ## Dependency-XML member handler theorems -/

/-- C6: the constructor rule of handle_member.  For a method member whose
last dot-segment (after stripping a parenthesized parameter suffix)
contains #ctor and which has a preceding segment, the emitted method
node and class node both carry that preceding segment as their symbol. -/
theorem handle_member_ctor_symbols (name lp prev : String)
    (hne : name ≠ "")
    (hlast : (splitOnChar '.' (stripParams name)).getLast? = some lp)
    (hctor : strContains lp "#ctor" = true)
    (hprev : (splitOnChar '.' (stripParams name)).dropLast.getLast? = some prev) :
    (handle_member "M" name).1.take 2 = [⟨prev, .methodName⟩, ⟨prev, .classDef⟩] := by
  unfold handle_member
  rw [if_neg (show ¬("M" : String) = "N" from by decide)]
  rw [if_neg (show ¬("M" : String) = "T" from by decide)]
  rw [if_neg (show ¬((decide (("M" : String) = "F")
    || decide (("M" : String) = "P")) = true) from by decide)]
  rw [if_pos (show ("M" : String) = "M" from rfl)]
  rw [if_neg hne]
  simp only [hlast, hctor, hprev]
  rfl

/-- Witness for the C6 theorem: the member M with name X.#ctor(System.Char)
yields method symbol X and class symbol X. -/
theorem handle_member_ctor_symbols_witness :
    ("X.#ctor(System.Char)" : String) ≠ "" ∧
    (splitOnChar '.' (stripParams "X.#ctor(System.Char)")).getLast? = some "#ctor" ∧
    strContains "#ctor" "#ctor" = true ∧
    (splitOnChar '.' (stripParams "X.#ctor(System.Char)")).dropLast.getLast? = some "X" ∧
    (handle_member "M" "X.#ctor(System.Char)").1.take 2 =
      [⟨"X", .methodName⟩, ⟨"X", .classDef⟩] :=
  ⟨by decide, by decide, by decide, by decide,
    handle_member_ctor_symbols "X.#ctor(System.Char)" "#ctor" "X"
      (by decide) (by decide) (by decide) (by decide)⟩

/- ## Query traversal theorems -/

theorem nonP10Children_removeP10 (g : TravGraph) (n : Nat) :
    nonP10Children (removeP10 g) n = nonP10Children g n := by
  simp [nonP10Children, removeP10, List.filter_filter]

theorem visitChild_removeP10 (g : TravGraph) (m : SymbolMatcherModel)
    (tws : Nat → String → Option Fqdn) (uri : String) :
    visitChild (removeP10 g) m tws uri = visitChild g m tws uri := rfl

theorem traverseFuel_removeP10 (g : TravGraph) (m : SymbolMatcherModel)
    (tws : Nat → String → Option Fqdn) (uri : String) :
    ∀ (fuel node : Nat), traverseFuel g m tws uri fuel node =
      traverseFuel (removeP10 g) m tws uri fuel node := by
  intro fuel
  induction fuel with
  | zero => intro node; rfl
  | succ f ih =>
    intro node
    simp only [traverseFuel]
    rw [nonP10Children_removeP10, visitChild_removeP10]
    congr 1
    congr 1
    exact List.map_congr_left (fun c _ => ih c)

theorem mem_nonP10Children {g : TravGraph} {node c : Nat}
    (h : c ∈ nonP10Children g node) :
    ∃ e, e ∈ g.edges node ∧ e.precedence ≠ 10 ∧ e.sink = c := by
  unfold nonP10Children at h
  obtain ⟨e, he, hc⟩ := List.mem_map.mp h
  obtain ⟨he1, he2⟩ := List.mem_filter.mp he
  refine ⟨e, he1, ?_, hc⟩
  simpa using he2

theorem traverseFuel_stable_aux (g : TravGraph) (m : SymbolMatcherModel)
    (tws : Nat → String → Option Fqdn) (uri : String) (start : Nat) (rank : Nat → Nat)
    (hrank : ∀ n, Reach g start n → ∀ e, e ∈ g.edges n → e.precedence ≠ 10 →
      rank e.sink < rank n) :
    ∀ k n, rank n ≤ k → Reach g start n → ∀ f₁ f₂, rank n < f₁ → rank n < f₂ →
      traverseFuel g m tws uri f₁ n = traverseFuel g m tws uri f₂ n := by
  intro k
  induction k with
  | zero =>
    intro n hk hreach f₁ f₂ h1 h2
    cases f₁ with
    | zero => omega
    | succ a =>
      cases f₂ with
      | zero => omega
      | succ b =>
        simp only [traverseFuel]
        congr 1
        congr 1
        refine List.map_congr_left ?_
        intro c hc
        obtain ⟨e, he, hp, hs⟩ := mem_nonP10Children hc
        have hlt := hrank n hreach e he hp
        omega
  | succ k ih =>
    intro n hk hreach f₁ f₂ h1 h2
    cases f₁ with
    | zero => omega
    | succ a =>
      cases f₂ with
      | zero => omega
      | succ b =>
        simp only [traverseFuel]
        congr 1
        congr 1
        refine List.map_congr_left ?_
        intro c hc
        obtain ⟨e, he, hp, hs⟩ := mem_nonP10Children hc
        have hlt := hrank n hreach e he hp
        rw [hs] at hlt
        have hreach' : Reach g start c := hs ▸ Reach.step hreach he hp
        exact ih c (by omega) hreach' a b (by omega) (by omega)

/-- C10: the query traversal never follows a precedence-10 edge (removing
every precedence-10 edge leaves the computation unchanged for every fuel
and starting node), and on any graph whose non-precedence-10 subgraph
reachable from the start node is acyclic (witnessed by a rank function
strictly decreasing along reachable non-precedence-10 edges, which
exists exactly for the finite acyclic subgraphs the Rust recursion
terminates on) the result is the same for every sufficient fuel, i.e.
the unbounded recursion terminates with that value. -/
theorem traverse_node_search_skips_p10_and_terminates
    (g : TravGraph) (m : SymbolMatcherModel) (tws : Nat → String → Option Fqdn)
    (uri : String) (start : Nat) (rank : Nat → Nat)
    (hrank : ∀ n, Reach g start n → ∀ e, e ∈ g.edges n → e.precedence ≠ 10 →
      rank e.sink < rank n) :
    (∀ fuel node, traverseFuel g m tws uri fuel node =
      traverseFuel (removeP10 g) m tws uri fuel node) ∧
    (∀ f₁ f₂, rank start < f₁ → rank start < f₂ →
      traverseFuel g m tws uri f₁ start = traverseFuel g m tws uri f₂ start) := by
  refine ⟨traverseFuel_removeP10 g m tws uri, ?_⟩
  intro f₁ f₂ h1 h2
  exact traverseFuel_stable_aux g m tws uri start rank hrank (rank start) start
    le_rfl Reach.refl f₁ f₂ h1 h2

/-- Witness for the C10 theorem on the demo graph whose node 1 has one
structural edge to node 0 and a precedence-10 self-loop. -/
theorem traverse_skips_p10_witness :
    (∀ n, Reach travDemoGraph 1 n → ∀ e, e ∈ travDemoGraph.edges n →
      e.precedence ≠ 10 → id e.sink < id n) ∧
    ((∀ fuel node,
        traverseFuel travDemoGraph emptyMatcher (fun _ _ => none) "u" fuel node =
          traverseFuel (removeP10 travDemoGraph) emptyMatcher (fun _ _ => none) "u" fuel node) ∧
      (∀ f₁ f₂, id 1 < f₁ → id 1 < f₂ →
        traverseFuel travDemoGraph emptyMatcher (fun _ _ => none) "u" f₁ 1 =
          traverseFuel travDemoGraph emptyMatcher (fun _ _ => none) "u" f₂ 1)) := by
  have hrank : ∀ n, Reach travDemoGraph 1 n → ∀ e, e ∈ travDemoGraph.edges n →
      e.precedence ≠ 10 → id e.sink < id n := by
    intro n _ e he hp
    by_cases h : n = 1
    · subst h
      simp only [travDemoGraph, if_pos rfl] at he
      rcases List.mem_cons.mp he with he | he
      · rw [he]
        exact Nat.zero_lt_one
      · rcases List.mem_singleton.mp he with he
        rw [he] at hp
        exact absurd rfl hp
    · simp only [travDemoGraph, if_neg h] at he
      cases he
  exact ⟨hrank, traverse_node_search_skips_p10_and_terminates travDemoGraph
    emptyMatcher (fun _ _ => none) "u" 1 id hrank⟩
